import Mathlib

/-!
Shallow embedding of the sanity-edge-fetcher repository:
`src/core.ts` (edgeSanityFetch request building, EdgeRateLimiter.throttle,
sanityFetchWithFallback) and `src/cache.ts` (generateCacheKey, MemoryCache,
cachedSanityFetch).  JavaScript strings are modelled as Lean `String`,
JS numbers as `Int`, timestamps in milliseconds as `Nat`.
-/

/-- Decimal digit character, used to model JavaScript number printing. -/
def digitChar (d : Nat) : Char :=
  match d with
  | 0 => '0' | 1 => '1' | 2 => '2' | 3 => '3' | 4 => '4'
  | 5 => '5' | 6 => '6' | 7 => '7' | 8 => '8' | _ => '9'

/-- Numeric value of a decimal digit character (inverse of `digitChar`). -/
def charVal (c : Char) : Nat :=
  match c with
  | '0' => 0 | '1' => 1 | '2' => 2 | '3' => 3 | '4' => 4
  | '5' => 5 | '6' => 6 | '7' => 7 | '8' => 8 | '9' => 9
  | _ => 0

/-- Decimal representation of a natural number as a list of characters. -/
def natChars (n : Nat) : List Char :=
  if h : n < 10 then [digitChar n]
  else natChars (n / 10) ++ [digitChar (n % 10)]
decreasing_by exact Nat.div_lt_self (by omega) (by omega)

/-- Read back a decimal digit string (helper used only in proofs). -/
def readNat (l : List Char) : Nat :=
  l.foldl (fun a c => 10 * a + charVal c) 0

/-- Decimal representation of an integer, as produced by JS template/JSON printing. -/
def intRepr (n : Int) : String :=
  if n < 0 then "-" ++ String.mk (natChars n.natAbs) else String.mk (natChars n.toNat)

/-- JSON string escaping of one character (quote, backslash, control chars). -/
def escapeChar (c : Char) : List Char :=
  if c = '"' then ['\\', '"']
  else if c = '\\' then ['\\', '\\']
  else if c = '\n' then ['\\', 'n']
  else if c = '\t' then ['\\', 't']
  else if c = '\r' then ['\\', 'r']
  else [c]

/-- JSON string escaping, as performed by `JSON.stringify` on string contents. -/
def escapeJson (s : String) : String :=
  String.mk (s.data.flatMap escapeChar)

/-- A scalar query-parameter value (`string | number | boolean` from `QueryParams`). -/
inductive JSPrim where
  | str (s : String)
  | num (n : Int)
  | bool (b : Bool)
deriving DecidableEq

/-- `JSON.stringify` of a scalar value. -/
def JSPrim.stringify : JSPrim → String
  | .str s => "\"" ++ escapeJson s ++ "\""
  | .num n => intRepr n
  | .bool true => "true"
  | .bool false => "false"

/-- A query-parameter value: scalar, `null`, `undefined`, or array of scalars,
mirroring the `QueryParams` value type of `src/core.ts`. -/
inductive JSValue where
  | prim (p : JSPrim)
  | null
  | undef
  | arr (xs : List JSPrim)
deriving DecidableEq

/-- The `.join(sep)` operation on a list of strings. -/
def joinSep (sep : String) : List String → String
  | [] => ""
  | [x] => x
  | x :: xs => x ++ sep ++ joinSep sep xs

/-- Rendering of a parameter value inside a template string, i.e.
`JSON.stringify(v)` interpolated (so `undefined` renders as "undefined"). -/
def jsonStringify : JSValue → String
  | .prim p => p.stringify
  | .null => "null"
  | .undef => "undefined"
  | .arr xs => "[" ++ joinSep "," (xs.map JSPrim.stringify) ++ "]"

/-- JavaScript object member access `params[key]`: the value of the first
binding of `key`, or `undefined` when the key is absent. -/
def lookupParam (params : List (String × JSValue)) (key : String) : JSValue :=
  match params.find? (fun p => decide (p.1 = key)) with
  | some p => p.2
  | none => JSValue.undef

/-- Translation of `generateCacheKey` from `src/cache.ts`: base key
`sanity:<dataset>:<query>`, and when parameters are present, a suffix of
`key=JSON.stringify(value)` pairs joined by `&` with the keys sorted. -/
def generateCacheKey (dataset query : String) (params : List (String × JSValue)) : String :=
  let baseKey := "sanity:" ++ dataset ++ ":" ++ query
  if params.isEmpty then baseKey
  else
    let sortedParams :=
      joinSep "&" (((params.map Prod.fst).mergeSort (fun a b => decide (a ≤ b))).map
        (fun key => key ++ "=" ++ jsonStringify (lookupParam params key)))
    baseKey ++ ":" ++ sortedParams

/-- A JSON document, the shape of Sanity query results. -/
inductive Json where
  | null
  | bool (b : Bool)
  | num (n : Int)
  | str (s : String)
  | arr (xs : List Json)
  | obj (fields : List (String × Json))

/-- The JS test `x === null` applied to a result value. -/
def isNull : Json → Bool
  | .null => true
  | _ => false

/-- JavaScript truthiness of a result value (`if (publishedResult)`). -/
def truthy : Json → Bool
  | .null => false
  | .bool b => b
  | .num n => n != 0
  | .str s => !s.isEmpty
  | .arr _ => true
  | .obj _ => true

/-- Translation of the `CacheEntry<T>` interface of `src/cache.ts`
(timestamps in milliseconds). -/
structure CacheEntry where
  value : Json
  timestamp : Nat
  validUntil : Nat

/-- State of the in-memory LRU cache of `src/cache.ts`: the backing
`Map`, modelled as an association list in insertion/recency order
(oldest first, most recently used last). -/
structure MemoryCache where
  entries : List (String × CacheEntry)

/-- The `maxSize = 100` field of `MemoryCache`. -/
def MemoryCache.maxSize : Nat := 100

/-- Translation of `MemoryCache.get`: `null` if the key is unknown;
delete and return `null` if the entry has expired (`now > validUntil`);
otherwise move the entry to the most-recently-used position and return
its value. -/
def MemoryCache.get (c : MemoryCache) (key : String) (now : Nat) : Json × MemoryCache :=
  match c.entries.find? (fun p => decide (p.1 = key)) with
  | none => (Json.null, c)
  | some p =>
    if now > p.2.validUntil then
      (Json.null, ⟨c.entries.eraseP (fun q => decide (q.1 = key))⟩)
    else
      (p.2.value, ⟨c.entries.eraseP (fun q => decide (q.1 = key)) ++ [(key, p.2)]⟩)

/-- Translation of `MemoryCache.set`: when at capacity and the key is not
present, evict the first (least recently used) entry; then `Map.set`,
which replaces in place when the key exists and appends otherwise. -/
def MemoryCache.set (c : MemoryCache) (key : String) (value : Json) (ttl : Nat)
    (now : Nat) : MemoryCache :=
  let hasKey := c.entries.any (fun p => decide (p.1 = key))
  let entries1 :=
    if MemoryCache.maxSize ≤ c.entries.length ∧ hasKey = false then c.entries.drop 1
    else c.entries
  let newEntry : CacheEntry := ⟨value, now, now + ttl * 1000⟩
  ⟨if hasKey then entries1.map (fun p => if p.1 = key then (key, newEntry) else p)
    else entries1 ++ [(key, newEntry)]⟩

/-- The `size()` operation of `MemoryCache`. -/
def MemoryCache.size (c : MemoryCache) : Nat :=
  c.entries.length

/-- Which cache layer served a `cachedSanityFetch` call. -/
inductive Layer where
  | memory | redis | origin
deriving DecidableEq

/-- Observable outcome of one `cachedSanityFetch` call: the returned value,
the memory-cache state afterwards, the layer that served the call
(`origin` means an underlying network fetch happened), and whether the
Redis write-through succeeded. -/
structure CallOut where
  value : Json
  mem : MemoryCache
  servedBy : Layer
  wroteRedis : Bool

/-- Translation of `cachedSanityFetch` from `src/cache.ts`.  External
effects are passed as oracles: `redisRead` is the outcome of
`redis.get` (`Except.error` models a thrown/connectivity error, caught
by the surrounding `try`), `redisWriteFails` whether `redisWriter.set`
throws (also caught), and `originFetch` the outcome of the layer-3
origin fetch (both arms of the Next.js-cache branch invoke
`edgeSanityFetch`, so layer 3 is one origin fetch).  Fetch errors are
the only ones propagated (`Except.error`). -/
def cachedSanityFetch (dataset query : String) (params : List (String × JSValue))
    (ttl : Nat) (keyPrefix : String) (force useRedis : Bool)
    (redisConfigured writerConfigured : Bool)
    (mem : MemoryCache) (now : Nat)
    (redisRead : Except Unit (Option CacheEntry)) (redisWriteFails : Bool)
    (originFetch : Except Unit Json) : Except Unit CallOut :=
  let cacheKey := keyPrefix ++ generateCacheKey dataset query params
  let gr := if force then (Json.null, mem) else MemoryCache.get mem cacheKey now
  if isNull gr.1 = false then
    Except.ok ⟨gr.1, gr.2, Layer.memory, false⟩
  else
    let mem1 := gr.2
    let redisHit : Option Json :=
      if force = false ∧ useRedis = true ∧ redisConfigured = true then
        match redisRead with
        | Except.error _ => none
        | Except.ok none => none
        | Except.ok (some e) => if now ≤ e.validUntil then some e.value else none
      else none
    match redisHit with
    | some v => Except.ok ⟨v, MemoryCache.set mem1 cacheKey v ttl now, Layer.redis, false⟩
    | none =>
      match originFetch with
      | Except.error e => Except.error e
      | Except.ok result =>
        let mem2 := MemoryCache.set mem1 cacheKey result ttl now
        let wrote := useRedis && writerConfigured && !redisWriteFails
        Except.ok ⟨result, mem2, Layer.origin, wrote⟩

/-- The HTTP request assembled by `edgeSanityFetch` (URL path, query
string entries in insertion order, headers). -/
structure SanityRequest where
  url : String
  searchParams : List (String × String)
  headers : List (String × String)

/-- Translation of the request-building part of `edgeSanityFetch` from
`src/core.ts` (lines 92-126): host selection, `query` parameter,
`perspective=previewDrafts` when `useAuth`, `$`-prefixed JSON-encoded
parameters, `Accept` header, and a `Bearer` Authorization header only
when `useAuth` is set and a viewer token is configured. -/
def edgeSanityFetchRequest (projectId apiVersion dataset query : String)
    (params : List (String × JSValue)) (useCdn useAuth : Bool)
    (envToken : Option String) : SanityRequest :=
  let baseUrl := if useCdn then "https://" ++ projectId ++ ".apicdn.sanity.io"
    else "https://" ++ projectId ++ ".api.sanity.io"
  let url := baseUrl ++ "/v" ++ apiVersion ++ "/data/query/" ++ dataset
  let searchParams := [("query", query)]
    ++ (if useAuth then [("perspective", "previewDrafts")] else [])
    ++ params.map (fun p => ("$" ++ p.1, jsonStringify p.2))
  let headers := [("Accept", "application/json")]
    ++ (if useAuth then
          match envToken with
          | some envTok => [("Authorization", "Bearer " ++ envTok)]
          | none => []
        else [])
  ⟨url, searchParams, headers⟩

/-- The `minInterval = 100` field of `EdgeRateLimiter` (milliseconds). -/
def EdgeRateLimiter.minInterval : Nat := 100

/-- Translation of `EdgeRateLimiter.throttle` from `src/core.ts` under a
discrete-time model: given the stored `lastRequest` timestamp, the
current time `now`, and the instant `wake` at which the `setTimeout`
sleep actually ends (real sleeps may overshoot, so theorems only assume
`wake ≥ now + requested delay`), returns (time at which the throttled
request proceeds, new `lastRequest` recorded by `Date.now()` after the
wait). -/
def EdgeRateLimiter.throttle (lastRequest now wake : Nat) : Nat × Nat :=
  if now - lastRequest < EdgeRateLimiter.minInterval then (wake, wake)
  else (now, now)

/-- Translation of `sanityFetchWithFallback` from `src/core.ts`,
abstracted over the fetch primitive: `fetchFn useCdn useAuth` is the
result of `edgeSanityFetch` with those flags.  Returns the final value
together with the list of `(useCdn, useAuth)` fetches issued, in order. -/
def sanityFetchWithFallback (isNextDraftMode : Bool)
    (fetchFn : Bool → Bool → Json) : Json × List (Bool × Bool) :=
  if isNextDraftMode then
    (fetchFn false true, [(false, true)])
  else
    let publishedResult := fetchFn true false
    if truthy publishedResult then
      (publishedResult, [(true, false)])
    else
      (fetchFn false true, [(true, false), (false, true)])

/-- Concrete three-digit key, used for concrete cache instances. -/
def key3 (i : Nat) : String :=
  String.mk [digitChar (i / 100), digitChar (i / 10 % 10), digitChar (i % 10)]

/-- A list of 101 distinct keys, used for concrete cache instances. -/
def keys101 : List String := (List.range 101).map key3

/-- A memory cache filled to capacity with 100 distinct keys. -/
def cache100 : MemoryCache :=
  ⟨(List.range 100).map (fun i => (key3 i, ⟨Json.null, 0, 0⟩))⟩

/-- The ten decimal digit characters. -/
def digitList : List Char :=
  ['0', '1', '2', '3', '4', '5', '6', '7', '8', '9']

/-- A string with no JSON escapes and no cache-key separator characters. -/
def cleanString (s : String) : Prop :=
  ∀ c ∈ s.data, c ≠ '"' ∧ c ≠ '\\' ∧ c ≠ '\n' ∧ c ≠ '\t' ∧ c ≠ '\r' ∧ c ≠ '&' ∧ c ≠ '='

/-- A parameter value whose serialization is unambiguous: a scalar, `null`
or `undefined`; string contents clean of escapes and separators. -/
def cleanVal : JSValue → Prop
  | .prim (.str s) => cleanString s
  | .prim (.num _) => True
  | .prim (.bool _) => True
  | .null => True
  | .undef => True
  | .arr _ => False

/-- A parameter key containing neither of the pair separators. -/
def cleanKeyStr (k : String) : Prop :=
  ∀ c ∈ k.data, c ≠ '&' ∧ c ≠ '='

/-- A string with no colon, the base-key separator. -/
def colonFree (s : String) : Prop :=
  ∀ c ∈ s.data, c ≠ ':'

/-- A parameter mapping with clean keys and clean values throughout. -/
def cleanParams (p : List (String × JSValue)) : Prop :=
  ∀ q ∈ p, cleanKeyStr q.1 ∧ cleanVal q.2

instance cleanString_decidable (s : String) : Decidable (cleanString s) := by
  unfold cleanString
  infer_instance

instance cleanVal_decidable : ∀ v : JSValue, Decidable (cleanVal v)
  | .prim (.str s) => inferInstanceAs (Decidable (cleanString s))
  | .prim (.num _) => inferInstanceAs (Decidable True)
  | .prim (.bool _) => inferInstanceAs (Decidable True)
  | .null => inferInstanceAs (Decidable True)
  | .undef => inferInstanceAs (Decidable True)
  | .arr _ => inferInstanceAs (Decidable False)

instance cleanKeyStr_decidable (k : String) : Decidable (cleanKeyStr k) := by
  unfold cleanKeyStr
  infer_instance

instance colonFree_decidable (s : String) : Decidable (colonFree s) := by
  unfold colonFree
  infer_instance

instance cleanParams_decidable (p : List (String × JSValue)) :
    Decidable (cleanParams p) := by
  unfold cleanParams
  infer_instance

/-- Decoder inverting `jsonStringify` on clean values (proof device only). -/
def decodeVal (l : List Char) : Option JSValue :=
  if l = "true".data then some (JSValue.prim (JSPrim.bool true))
  else if l = "false".data then some (JSValue.prim (JSPrim.bool false))
  else if l = "null".data then some JSValue.null
  else if l = "undefined".data then some JSValue.undef
  else if l.head? = some '"' then
    some (JSValue.prim (JSPrim.str (String.mk l.tail.dropLast)))
  else if l.head? = some '-' then
    some (JSValue.prim (JSPrim.num (-(readNat l.tail : Int))))
  else some (JSValue.prim (JSPrim.num (readNat l)))

/-- Character-list version of `joinSep` (proof device only). -/
def joinChars (sep : Char) : List (List Char) → List Char
  | [] => []
  | [x] => x
  | x :: xs => x ++ sep :: joinChars sep xs

/-! ## Claim C3: draft fallback behaviour of `sanityFetchWithFallback` -/

/-- C3: with draft mode inactive, if the first CDN (unauthenticated) fetch
returns a null-equivalent result, a second authenticated fetch is issued and
its value is returned; if the CDN fetch returns a non-empty (truthy) result,
that value is returned and no second fetch occurs. -/
theorem c3_fallback_second_fetch (fetchFn : Bool → Bool → Json) :
    (fetchFn true false = Json.null →
      sanityFetchWithFallback false fetchFn
        = (fetchFn false true, [(true, false), (false, true)])) ∧
    (truthy (fetchFn true false) = true →
      sanityFetchWithFallback false fetchFn
        = (fetchFn true false, [(true, false)])) := by
  constructor
  · intro h
    simp [sanityFetchWithFallback, h, truthy]
  · intro h
    simp [sanityFetchWithFallback, h]

/-- Witness for C3: a concrete store with no published content falls back to
the authenticated draft fetch; a concrete store with published content does
not issue a second fetch. -/
theorem c3_fallback_second_fetch_witness :
    sanityFetchWithFallback false
        (fun _ useAuth => if useAuth then Json.str "draft" else Json.null)
      = (Json.str "draft", [(true, false), (false, true)]) ∧
    sanityFetchWithFallback false (fun _ _ => Json.str "pub")
      = (Json.str "pub", [(true, false)]) :=
  ⟨(c3_fallback_second_fetch
      (fun _ useAuth => if useAuth then Json.str "draft" else Json.null)).1 rfl,
   (c3_fallback_second_fetch (fun _ _ => Json.str "pub")).2 rfl⟩

/-! ## Claim C8: Authorization header and perspective parameter -/

/-- C8: `edgeSanityFetch` with `useAuth = true` and no configured viewer token
builds a request with no Authorization header that still carries the
`perspective=previewDrafts` query parameter; with a configured token the
Authorization header is `Bearer <token>`. -/
theorem c8_auth_header (projectId apiVersion dataset query : String)
    (params : List (String × JSValue)) (useCdn : Bool) :
    ((edgeSanityFetchRequest projectId apiVersion dataset query params useCdn true
        none).headers = [("Accept", "application/json")] ∧
      ("perspective", "previewDrafts")
        ∈ (edgeSanityFetchRequest projectId apiVersion dataset query params useCdn true
            none).searchParams) ∧
    (∀ tok : String,
      (edgeSanityFetchRequest projectId apiVersion dataset query params useCdn true
          (some tok)).headers
        = [("Accept", "application/json"), ("Authorization", "Bearer " ++ tok)]) := by
  refine ⟨⟨?_, ?_⟩, fun tok => ?_⟩ <;> simp [edgeSanityFetchRequest]

/-! ## Claim C9: rate gate spacing -/

/-- C9: back-to-back `throttle` calls are spaced by at least `minInterval`:
the second call's proceed time is at least `minInterval` after the first
call's proceed time, and the second call always proceeds (delayed, never
dropped).  `wake` arguments model the instant the `setTimeout` sleep ends,
assumed no earlier than the requested delay. -/
theorem c9_throttle_spacing (last0 now1 wake1 now2 wake2 : Nat)
    (hw1 : now1 + (EdgeRateLimiter.minInterval - (now1 - last0)) ≤ wake1)
    (hseq : (EdgeRateLimiter.throttle last0 now1 wake1).2 ≤ now2)
    (hw2 : now2 + (EdgeRateLimiter.minInterval
        - (now2 - (EdgeRateLimiter.throttle last0 now1 wake1).2)) ≤ wake2) :
    (EdgeRateLimiter.throttle last0 now1 wake1).1 + EdgeRateLimiter.minInterval
      ≤ (EdgeRateLimiter.throttle (EdgeRateLimiter.throttle last0 now1 wake1).2
          now2 wake2).1 ∧
    now2 ≤ (EdgeRateLimiter.throttle (EdgeRateLimiter.throttle last0 now1 wake1).2
        now2 wake2).1 := by
  unfold EdgeRateLimiter.throttle EdgeRateLimiter.minInterval at *
  split_ifs at * <;> simp_all <;> omega

/-- Witness for C9: concrete back-to-back calls 1 ms apart are spaced to
100 ms. -/
theorem c9_throttle_spacing_witness :
    (EdgeRateLimiter.throttle 0 1000 1000).1 + EdgeRateLimiter.minInterval
      ≤ (EdgeRateLimiter.throttle (EdgeRateLimiter.throttle 0 1000 1000).2
          1001 1100).1 ∧
    1001 ≤ (EdgeRateLimiter.throttle (EdgeRateLimiter.throttle 0 1000 1000).2
        1001 1100).1 :=
  c9_throttle_spacing 0 1000 1000 1001 1100 (by decide) (by decide) (by decide)

/-! ## Claim C10: `set` on an existing key never evicts -/

/-- C10: `MemoryCache.set` with a key already present — even at capacity —
evicts nothing: the entry for that key is replaced in place, every other
entry is unchanged, and the size does not grow. -/
theorem c10_set_existing_key_frame (c : MemoryCache) (key : String) (value : Json)
    (ttl now : Nat) (hmem : key ∈ c.entries.map Prod.fst) :
    (MemoryCache.set c key value ttl now).entries
      = c.entries.map
          (fun p => if p.1 = key then (key, ⟨value, now, now + ttl * 1000⟩) else p) ∧
    (MemoryCache.set c key value ttl now).size = c.size ∧
    ∀ p ∈ c.entries, p.1 ≠ key → p ∈ (MemoryCache.set c key value ttl now).entries := by
  have hasKey : c.entries.any (fun p => decide (p.1 = key)) = true := by
    rw [List.any_eq_true]
    rcases List.mem_map.mp hmem with ⟨p, hp, hpk⟩
    exact ⟨p, hp, by simp [hpk]⟩
  have he : (MemoryCache.set c key value ttl now).entries
      = c.entries.map
          (fun p => if p.1 = key then (key, ⟨value, now, now + ttl * 1000⟩) else p) := by
    simp [MemoryCache.set, hasKey]
  refine ⟨he, ?_, ?_⟩
  · simp [MemoryCache.size, he]
  · intro p hp hne
    rw [he]
    exact List.mem_map.mpr ⟨p, hp, by simp [hne]⟩

/-- Witness for C10: replacing the older of two entries keeps the cache at
size two with the other entry intact. -/
theorem c10_set_existing_key_frame_witness :
    (MemoryCache.set ⟨[("a", ⟨Json.bool true, 0, 50⟩), ("b", ⟨Json.bool false, 1, 60⟩)]⟩
        "a" Json.null 60 2).entries
      = [("a", ⟨Json.null, 2, 60002⟩), ("b", ⟨Json.bool false, 1, 60⟩)] ∧
    (MemoryCache.set ⟨[("a", ⟨Json.bool true, 0, 50⟩), ("b", ⟨Json.bool false, 1, 60⟩)]⟩
        "a" Json.null 60 2).size
      = (MemoryCache.size ⟨[("a", ⟨Json.bool true, 0, 50⟩), ("b", ⟨Json.bool false, 1, 60⟩)]⟩) ∧
    ("b", (⟨Json.bool false, 1, 60⟩ : CacheEntry))
      ∈ (MemoryCache.set ⟨[("a", ⟨Json.bool true, 0, 50⟩), ("b", ⟨Json.bool false, 1, 60⟩)]⟩
          "a" Json.null 60 2).entries := by
  have h := c10_set_existing_key_frame
    ⟨[("a", ⟨Json.bool true, 0, 50⟩), ("b", ⟨Json.bool false, 1, 60⟩)]⟩
    "a" Json.null 60 2 (by simp)
  exact ⟨by rw [h.1]; rfl, h.2.1,
    h.2.2 ("b", ⟨Json.bool false, 1, 60⟩) (by simp) (by simp)⟩

/-! ## Claim C4: eviction at capacity -/

/-- The capacity constant is positive. -/
theorem maxSize_pos : 0 < MemoryCache.maxSize := by
  norm_num [MemoryCache.maxSize]

/-- Inserting a key that is not present appends it, evicting the head
entry exactly when the cache is at capacity. -/
theorem memSet_fresh (c : MemoryCache) (k : String) (v : Json) (ttl now : Nat)
    (hfresh : k ∉ c.entries.map Prod.fst) :
    (MemoryCache.set c k v ttl now).entries
      = (if MemoryCache.maxSize ≤ c.entries.length then c.entries.drop 1 else c.entries)
        ++ [(k, ⟨v, now, now + ttl * 1000⟩)] := by
  have hk : c.entries.any (fun p => decide (p.1 = k)) = false := by
    rw [List.any_eq_false]
    intro p hp
    simp only [decide_eq_true_eq]
    exact fun he => hfresh (List.mem_map.mpr ⟨p, hp, he⟩)
  by_cases hc : MemoryCache.maxSize ≤ c.entries.length
  · simp [MemoryCache.set, hk, hc]
  · simp [MemoryCache.set, hk, hc]

/-- Keys present after folding a list of pairwise-fresh insertions: the
concatenated key sequence with the overflow dropped from the front. -/
theorem insertAll_keys (v : Json) (ttl now : Nat) (ks : List String) :
    ∀ (c : MemoryCache), ((c.entries.map Prod.fst) ++ ks).Nodup →
      c.entries.length ≤ MemoryCache.maxSize →
      ((ks.foldl (fun m key => MemoryCache.set m key v ttl now) c).entries.map Prod.fst)
        = ((c.entries.map Prod.fst) ++ ks).drop
            (c.entries.length + ks.length - MemoryCache.maxSize) := by
  induction ks with
  | nil =>
    intro c hnd hle
    simp only [List.foldl_nil, List.append_nil, List.length_nil, Nat.add_zero,
      Nat.sub_eq_zero_of_le hle, List.drop_zero]
  | cons k ks ih =>
    intro c hnd hle
    have hfresh : k ∉ c.entries.map Prod.fst := by
      rw [List.nodup_append] at hnd
      exact fun hkm => hnd.2.2 hkm (List.mem_cons_self k ks)
    rw [List.foldl_cons]
    have hset := memSet_fresh c k v ttl now hfresh
    by_cases hcap : MemoryCache.maxSize ≤ c.entries.length
    · have hlen : c.entries.length = MemoryCache.maxSize := le_antisymm hle hcap
      rw [if_pos hcap] at hset
      have hkeys1 : (MemoryCache.set c k v ttl now).entries.map Prod.fst
          = (c.entries.map Prod.fst).drop 1 ++ [k] := by
        rw [hset]
        simp [List.map_drop]
      have hlen1 : (MemoryCache.set c k v ttl now).entries.length
          = MemoryCache.maxSize := by
        rw [hset]
        simp only [List.length_append, List.length_drop, List.length_cons,
          List.length_nil]
        have := maxSize_pos
        omega
      have hnd1 : ((MemoryCache.set c k v ttl now).entries.map Prod.fst ++ ks).Nodup := by
        rw [hkeys1, List.append_assoc, List.singleton_append]
        have hsub : ((c.entries.map Prod.fst).drop 1 ++ (k :: ks)).Sublist
            ((c.entries.map Prod.fst) ++ (k :: ks)) :=
          (List.drop_sublist 1 _).append_right _
        exact hnd.sublist hsub
      rw [ih _ hnd1 (le_of_eq hlen1), hkeys1, hlen1]
      have hidx1 : MemoryCache.maxSize + ks.length - MemoryCache.maxSize = ks.length := by
        omega
      have hidx2 : c.entries.length + (k :: ks).length - MemoryCache.maxSize
          = ks.length + 1 := by
        simp only [List.length_cons]
        omega
      rw [hidx1, hidx2]
      obtain ⟨h0, t0, hk0⟩ : ∃ h0 t0, c.entries.map Prod.fst = h0 :: t0 := by
        cases hK : c.entries.map Prod.fst with
        | nil =>
          exfalso
          have := congrArg List.length hK
          simp only [List.length_map, List.length_nil] at this
          have := maxSize_pos
          omega
        | cons a l => exact ⟨a, l, rfl⟩
      rw [hk0]
      simp [List.append_assoc]
    · rw [if_neg hcap] at hset
      have hkeys1 : (MemoryCache.set c k v ttl now).entries.map Prod.fst
          = (c.entries.map Prod.fst) ++ [k] := by
        rw [hset]; simp
      have hlen1 : (MemoryCache.set c k v ttl now).entries.length
          = c.entries.length + 1 := by
        rw [hset]; simp
      have hnd1 : ((MemoryCache.set c k v ttl now).entries.map Prod.fst ++ ks).Nodup := by
        rw [hkeys1, List.append_assoc, List.singleton_append]
        exact hnd
      have hle1 : (MemoryCache.set c k v ttl now).entries.length
          ≤ MemoryCache.maxSize := by
        rw [hlen1]; omega
      rw [ih _ hnd1 hle1, hkeys1, hlen1]
      have hidx : c.entries.length + 1 + ks.length
          = c.entries.length + (k :: ks).length := by
        simp only [List.length_cons]
        omega
      rw [hidx, List.append_assoc, List.singleton_append]

/-- C4: a `set` with a fresh key on a cache at its capacity of 100 evicts
exactly the first (least recently accessed) entry before appending the new
one, so the size never exceeds 100; and folding `maxSize + 1` distinct
insertions into an empty cache evicts exactly the first-inserted key,
leaving the remaining 100 keys in order. -/
theorem c4_capacity_eviction :
    (∀ (c : MemoryCache) (k : String) (v : Json) (ttl now : Nat),
      c.entries.length = MemoryCache.maxSize →
      k ∉ c.entries.map Prod.fst →
      (MemoryCache.set c k v ttl now).entries
          = c.entries.drop 1 ++ [(k, ⟨v, now, now + ttl * 1000⟩)] ∧
        (MemoryCache.set c k v ttl now).size = MemoryCache.maxSize) ∧
    (∀ (ks : List String) (v : Json) (ttl now : Nat),
      ks.Nodup → ks.length = MemoryCache.maxSize + 1 →
      ((ks.foldl (fun m key => MemoryCache.set m key v ttl now) ⟨[]⟩).entries.map
          Prod.fst) = ks.drop 1) := by
  constructor
  · intro c k v ttl now hcap hfresh
    have hset := memSet_fresh c k v ttl now hfresh
    rw [if_pos (le_of_eq hcap.symm)] at hset
    refine ⟨hset, ?_⟩
    rw [MemoryCache.size, hset]
    simp only [List.length_append, List.length_drop, List.length_cons, List.length_nil]
    have := maxSize_pos
    omega
  · intro ks v ttl now hnd hlen
    have h := insertAll_keys v ttl now ks ⟨[]⟩ (by simpa using hnd) (by simp)
    simp only [List.map_nil, List.nil_append, List.length_nil, Nat.zero_add] at h
    rw [h, hlen]
    have hone : MemoryCache.maxSize + 1 - MemoryCache.maxSize = 1 := by omega
    rw [hone]

/-- Witness for C4: inserting a fresh key into the concrete full cache evicts
its head and keeps size 100; inserting 101 distinct keys into an empty cache
leaves exactly the last 100. -/
theorem c4_capacity_eviction_witness :
    ((MemoryCache.set cache100 "fresh" Json.null 60 5).entries
        = cache100.entries.drop 1 ++ [("fresh", ⟨Json.null, 5, 60005⟩)] ∧
      (MemoryCache.set cache100 "fresh" Json.null 60 5).size = MemoryCache.maxSize) ∧
    ((keys101.foldl (fun m key => MemoryCache.set m key Json.null 60 5) ⟨[]⟩).entries.map
        Prod.fst) = keys101.drop 1 :=
  ⟨c4_capacity_eviction.1 cache100 "fresh" Json.null 60 5 (by decide) (by decide),
   c4_capacity_eviction.2 keys101 Json.null 60 5 (by decide) (by decide)⟩

/-! ## Claims C1, C5, C6: the layered `cachedSanityFetch` -/

/-- After a `set`, the first entry found for the key is the freshly written
one, whose expiry is `now + ttl * 1000`. -/
theorem find?_set_self (c : MemoryCache) (key : String) (v : Json) (ttl now : Nat) :
    (MemoryCache.set c key v ttl now).entries.find? (fun p => decide (p.1 = key))
      = some (key, ⟨v, now, now + ttl * 1000⟩) := by
  have hgen : ∀ (l : List (String × CacheEntry)),
      l.any (fun p => decide (p.1 = key)) = true →
      (l.map (fun p =>
          if p.1 = key then (key, (⟨v, now, now + ttl * 1000⟩ : CacheEntry)) else p)).find?
          (fun p => decide (p.1 = key)) = some (key, ⟨v, now, now + ttl * 1000⟩) := by
    intro l hl
    induction l with
    | nil => simp at hl
    | cons x xs ih =>
      by_cases hx : x.1 = key
      · simp [List.find?_cons, hx]
      · rw [List.map_cons, if_neg hx, List.find?_cons_of_neg _ (by simp [hx])]
        apply ih
        simpa [hx] using hl
  by_cases hk : c.entries.any (fun p => decide (p.1 = key)) = true
  · have hent : (MemoryCache.set c key v ttl now).entries
        = c.entries.map (fun p =>
            if p.1 = key then (key, ⟨v, now, now + ttl * 1000⟩) else p) := by
      simp [MemoryCache.set, hk]
    rw [hent]
    exact hgen _ hk
  · have hnotin : ∀ x ∈ c.entries, x.1 ≠ key := by
      intro x hx hxk
      exact hk (List.any_eq_true.mpr ⟨x, hx, by simp [hxk]⟩)
    have hstruct : (MemoryCache.set c key v ttl now).entries
        = (if MemoryCache.maxSize ≤ c.entries.length then c.entries.drop 1
            else c.entries) ++ [(key, ⟨v, now, now + ttl * 1000⟩)] := by
      apply memSet_fresh
      intro hmem
      rcases List.mem_map.mp hmem with ⟨p, hp, hpk⟩
      exact hnotin p hp hpk
    rw [hstruct, List.find?_append]
    have hleft : (if MemoryCache.maxSize ≤ c.entries.length then c.entries.drop 1
        else c.entries).find? (fun p => decide (p.1 = key)) = none := by
      rw [List.find?_eq_none]
      intro x hx
      have hx' : x ∈ c.entries := by
        by_cases hc : MemoryCache.maxSize ≤ c.entries.length
        · rw [if_pos hc] at hx
          exact (List.drop_sublist 1 _).subset hx
        · rw [if_neg hc] at hx
          exact hx
      simp only [decide_eq_true_eq]
      exact hnotin x hx'
    rw [hleft]
    simp [List.find?]

/-- A `get` of a key freshly `set` at time `now`, issued at any `now2` within
the entry's `ttl` window, returns the stored value. -/
theorem get_set_fst (c : MemoryCache) (key : String) (v : Json) (ttl now now2 : Nat)
    (hlive : now2 ≤ now + ttl * 1000) :
    (MemoryCache.get (MemoryCache.set c key v ttl now) key now2).1 = v := by
  unfold MemoryCache.get
  rw [find?_set_self]
  have hno : ¬(now2 > now + ttl * 1000) := by omega
  simp [hno]

/-- C1 (amended): if a `cachedSanityFetch` without the force flag was served
by the origin (one network fetch) and stored a non-null value, then a second
call with the same dataset, query and params within the TTL window performs
no origin fetch: it is served by the Memory Layer and returns the identical
value. -/
theorem c1_single_network_fetch (dataset query : String)
    (params : List (String × JSValue)) (ttl : Nat) (keyPrefix : String)
    (useRedis redisConfigured writerConfigured : Bool) (mem0 : MemoryCache)
    (now1 now2 : Nat) (rr1 rr2 : Except Unit (Option CacheEntry)) (wf1 wf2 : Bool)
    (v : Json) (of2 : Except Unit Json) (r1 : CallOut)
    (h1 : cachedSanityFetch dataset query params ttl keyPrefix false useRedis
        redisConfigured writerConfigured mem0 now1 rr1 wf1 (Except.ok v)
      = Except.ok r1)
    (hsb : r1.servedBy = Layer.origin)
    (hv : isNull v = false)
    (hlive : now2 ≤ now1 + ttl * 1000) :
    r1.value = v ∧
    ∃ mem2, cachedSanityFetch dataset query params ttl keyPrefix false useRedis
        redisConfigured writerConfigured r1.mem now2 rr2 wf2 of2
      = Except.ok ⟨v, mem2, Layer.memory, false⟩ := by
  unfold cachedSanityFetch at h1
  simp only [Bool.false_eq_true, if_false] at h1
  split at h1
  · injection h1 with h1'
    rw [← h1'] at hsb
    simp at hsb
  · split at h1
    · injection h1 with h1'
      rw [← h1'] at hsb
      simp at hsb
    · injection h1 with h1'
      rw [← h1']
      refine ⟨rfl, (MemoryCache.get (MemoryCache.set
        (MemoryCache.get mem0 (keyPrefix ++ generateCacheKey dataset query params) now1).2
        (keyPrefix ++ generateCacheKey dataset query params) v ttl now1)
        (keyPrefix ++ generateCacheKey dataset query params) now2).2, ?_⟩
      unfold cachedSanityFetch
      simp only [Bool.false_eq_true, if_false]
      have hg := get_set_fst
        ((MemoryCache.get mem0 (keyPrefix ++ generateCacheKey dataset query params) now1).2)
        (keyPrefix ++ generateCacheKey dataset query params) v ttl now1 now2 hlive
      rw [hg, hv]
      simp

/-- Counterexample to C1 as stated: with the Redis layer disabled and an
origin fetch returning `null`, a second identical call at the very same
instant (well within the 60 s TTL, no force flag) is again served by the
origin — two network fetches, not one — because the cached `null` is
indistinguishable from a miss. -/
theorem c1_counterexample :
    cachedSanityFetch "d" "q" [] 60 "" false false false false ⟨[]⟩ 0
        (Except.ok none) false (Except.ok Json.null)
      = Except.ok ⟨Json.null, ⟨[("sanity:d:q", ⟨Json.null, 0, 60000⟩)]⟩,
          Layer.origin, false⟩ ∧
    cachedSanityFetch "d" "q" [] 60 "" false false false false
        ⟨[("sanity:d:q", ⟨Json.null, 0, 60000⟩)]⟩ 0
        (Except.ok none) false (Except.ok Json.null)
      = Except.ok ⟨Json.null, ⟨[("sanity:d:q", ⟨Json.null, 0, 60000⟩)]⟩,
          Layer.origin, false⟩ :=
  ⟨rfl, rfl⟩

/-- Witness for C1: a concrete first call misses everywhere, fetches
`Json.bool true` from the origin, and a second call 1 s later is served by
the Memory Layer with the same value. -/
theorem c1_single_network_fetch_witness :
    (⟨Json.bool true, ⟨[("sanity:d:q", ⟨Json.bool true, 0, 60000⟩)]⟩,
        Layer.origin, false⟩ : CallOut).value = Json.bool true ∧
    ∃ mem2, cachedSanityFetch "d" "q" [] 60 "" false false false false
        (⟨Json.bool true, ⟨[("sanity:d:q", ⟨Json.bool true, 0, 60000⟩)]⟩,
          Layer.origin, false⟩ : CallOut).mem 1000
        (Except.ok none) false (Except.ok (Json.bool false))
      = Except.ok ⟨Json.bool true, mem2, Layer.memory, false⟩ :=
  c1_single_network_fetch "d" "q" [] 60 "" false false false ⟨[]⟩ 0 1000
    (Except.ok none) (Except.ok none) false false (Json.bool true)
    (Except.ok (Json.bool false))
    ⟨Json.bool true, ⟨[("sanity:d:q", ⟨Json.bool true, 0, 60000⟩)]⟩,
      Layer.origin, false⟩
    rfl rfl rfl (by omega)

/-- Counterexample to C5 as stated: a remote entry with 5 s of validity left
(validUntil 1005000 at now = 1000000) populates the Memory Layer with an
entry expiring at 1060000 — the full configured 60 s TTL — not at the
remote entry's remaining window 1005000. -/
theorem c5_counterexample :
    cachedSanityFetch "d" "q" [] 60 "" false true true false ⟨[]⟩ 1000000
        (Except.ok (some ⟨Json.bool true, 0, 1005000⟩)) false (Except.ok Json.null)
      = Except.ok ⟨Json.bool true,
          ⟨[("sanity:d:q", ⟨Json.bool true, 1000000, 1060000⟩)]⟩,
          Layer.redis, false⟩ ∧
    (1060000 : Nat) ≠ 1005000 :=
  ⟨rfl, by decide⟩

/-- C5 (amended): a `cachedSanityFetch` without force that misses the Memory
Layer but finds a live entry in the Remote (Redis) Layer returns the remote
value, served by the redis layer with no origin fetch, and populates the
Memory Layer with that value using the call's configured TTL (expiry
`now + ttl * 1000`), not the remote entry's remaining TTL. -/
theorem c5_redis_hit_populates_memory (dataset query : String)
    (params : List (String × JSValue)) (ttl : Nat) (keyPrefix : String)
    (writerConfigured : Bool) (mem : MemoryCache) (now : Nat) (e : CacheEntry)
    (wf : Bool) (ofetch : Except Unit Json)
    (hmiss : (MemoryCache.get mem (keyPrefix ++ generateCacheKey dataset query params)
        now).1 = Json.null)
    (hlive : now ≤ e.validUntil) :
    cachedSanityFetch dataset query params ttl keyPrefix false true true
        writerConfigured mem now (Except.ok (some e)) wf ofetch
      = Except.ok ⟨e.value,
          MemoryCache.set
            (MemoryCache.get mem (keyPrefix ++ generateCacheKey dataset query params)
              now).2
            (keyPrefix ++ generateCacheKey dataset query params) e.value ttl now,
          Layer.redis, false⟩ ∧
    (MemoryCache.set
        (MemoryCache.get mem (keyPrefix ++ generateCacheKey dataset query params)
          now).2
        (keyPrefix ++ generateCacheKey dataset query params) e.value ttl
        now).entries.find?
        (fun p => decide (p.1 = keyPrefix ++ generateCacheKey dataset query params))
      = some (keyPrefix ++ generateCacheKey dataset query params,
          ⟨e.value, now, now + ttl * 1000⟩) := by
  constructor
  · unfold cachedSanityFetch
    simp only [Bool.false_eq_true, if_false, hmiss, isNull]
    simp [hlive]
  · exact find?_set_self _ _ _ _ _

/-- Witness for C5 (amended): concrete remote hit with 5 s left and a 60 s
configured TTL is returned from redis and stored in memory until
`now + 60000`. -/
theorem c5_redis_hit_populates_memory_witness :
    cachedSanityFetch "d" "q" [] 60 "" false true true false ⟨[]⟩ 1000000
        (Except.ok (some ⟨Json.bool true, 0, 1005000⟩)) false (Except.ok Json.null)
      = Except.ok ⟨Json.bool true,
          MemoryCache.set
            (MemoryCache.get ⟨[]⟩ ("" ++ generateCacheKey "d" "q" []) 1000000).2
            ("" ++ generateCacheKey "d" "q" []) (Json.bool true) 60 1000000,
          Layer.redis, false⟩ ∧
    (MemoryCache.set
        (MemoryCache.get ⟨[]⟩ ("" ++ generateCacheKey "d" "q" []) 1000000).2
        ("" ++ generateCacheKey "d" "q" []) (Json.bool true) 60
        1000000).entries.find?
        (fun p => decide (p.1 = "" ++ generateCacheKey "d" "q" []))
      = some ("" ++ generateCacheKey "d" "q" [],
          ⟨Json.bool true, 1000000, 1000000 + 60 * 1000⟩) :=
  c5_redis_hit_populates_memory "d" "q" [] 60 "" false ⟨[]⟩ 1000000
    ⟨Json.bool true, 0, 1005000⟩ false (Except.ok Json.null) rfl (by decide)

/-- C6: Remote (Redis) Layer failures are never propagated.  A read failure
falls through to the origin fetch, whose fresh value is returned; a write
failure (any `wf`) still returns the fresh value; and whenever the call
fails, the failure is exactly the origin fetch's failure. -/
theorem c6_redis_errors_absorbed (dataset query : String)
    (params : List (String × JSValue)) (ttl : Nat) (keyPrefix : String)
    (useRedis redisConfigured writerConfigured : Bool) (mem : MemoryCache)
    (now : Nat) (wf : Bool)
    (hmiss : (MemoryCache.get mem (keyPrefix ++ generateCacheKey dataset query params)
        now).1 = Json.null) :
    (∀ v : Json, cachedSanityFetch dataset query params ttl keyPrefix false useRedis
        redisConfigured writerConfigured mem now (Except.error ()) wf (Except.ok v)
      = Except.ok ⟨v,
          MemoryCache.set
            (MemoryCache.get mem (keyPrefix ++ generateCacheKey dataset query params)
              now).2
            (keyPrefix ++ generateCacheKey dataset query params) v ttl now,
          Layer.origin, useRedis && writerConfigured && !wf⟩) ∧
    (∀ v : Json, cachedSanityFetch dataset query params ttl keyPrefix false useRedis
        redisConfigured writerConfigured mem now (Except.ok none) wf (Except.ok v)
      = Except.ok ⟨v,
          MemoryCache.set
            (MemoryCache.get mem (keyPrefix ++ generateCacheKey dataset query params)
              now).2
            (keyPrefix ++ generateCacheKey dataset query params) v ttl now,
          Layer.origin, useRedis && writerConfigured && !wf⟩) ∧
    (∀ (rr : Except Unit (Option CacheEntry)) (ofetch : Except Unit Json) (er : Unit),
      cachedSanityFetch dataset query params ttl keyPrefix false useRedis
          redisConfigured writerConfigured mem now rr wf ofetch = Except.error er →
        ofetch = Except.error er) := by
  refine ⟨?_, ?_, ?_⟩
  · intro v
    unfold cachedSanityFetch
    simp only [Bool.false_eq_true, if_false, hmiss, isNull]
    by_cases hg : false = false ∧ useRedis = true ∧ redisConfigured = true
    · simp [hg]
    · simp [hg]
  · intro v
    unfold cachedSanityFetch
    simp only [Bool.false_eq_true, if_false, hmiss, isNull]
    by_cases hg : false = false ∧ useRedis = true ∧ redisConfigured = true
    · simp [hg]
    · simp [hg]
  · intro rr ofetch er h
    unfold cachedSanityFetch at h
    simp only [Bool.false_eq_true, if_false] at h
    split at h
    · exact absurd h (by simp)
    · split at h
      · exact absurd h (by simp)
      · split at h
        · injection h with h'
          rw [h']
        · exact absurd h (by simp)

/-- Witness for C6: with a concrete empty memory cache, a redis read error
still yields the fresh origin value, a redis write failure still yields the
fresh origin value, and a concrete failing call fails with exactly the
origin's error. -/
theorem c6_redis_errors_absorbed_witness :
    cachedSanityFetch "d" "q" [] 60 "" false true true true ⟨[]⟩ 0
        (Except.error ()) false (Except.ok (Json.bool true))
      = Except.ok ⟨Json.bool true,
          MemoryCache.set (MemoryCache.get ⟨[]⟩ ("" ++ generateCacheKey "d" "q" []) 0).2
            ("" ++ generateCacheKey "d" "q" []) (Json.bool true) 60 0,
          Layer.origin, true && true && !false⟩ ∧
    cachedSanityFetch "d" "q" [] 60 "" false true true true ⟨[]⟩ 0
        (Except.ok none) true (Except.ok (Json.bool true))
      = Except.ok ⟨Json.bool true,
          MemoryCache.set (MemoryCache.get ⟨[]⟩ ("" ++ generateCacheKey "d" "q" []) 0).2
            ("" ++ generateCacheKey "d" "q" []) (Json.bool true) 60 0,
          Layer.origin, true && true && !true⟩ ∧
    Except.error () = (Except.error () : Except Unit Json) :=
  ⟨(c6_redis_errors_absorbed "d" "q" [] 60 "" true true true ⟨[]⟩ 0 false rfl).1
      (Json.bool true),
   (c6_redis_errors_absorbed "d" "q" [] 60 "" true true true ⟨[]⟩ 0 true rfl).2.1
      (Json.bool true),
   (c6_redis_errors_absorbed "d" "q" [] 60 "" true true true ⟨[]⟩ 0 false rfl).2.2
      (Except.ok none) (Except.error ()) () rfl⟩

/-! ## Claim C2: cache-key order independence -/

/-- `lookupParam` over a cons whose head key matches. -/
theorem lookupParam_cons_self (x : String × JSValue) (l : List (String × JSValue))
    (key : String) (hx : x.1 = key) : lookupParam (x :: l) key = x.2 := by
  simp [lookupParam, List.find?_cons, hx]

/-- `lookupParam` over a cons whose head key differs. -/
theorem lookupParam_cons_ne (x : String × JSValue) (l : List (String × JSValue))
    (key : String) (hx : ¬x.1 = key) : lookupParam (x :: l) key = lookupParam l key := by
  unfold lookupParam
  rw [List.find?_cons_of_neg _ (by simp [hx])]

/-- Permuting a parameter object with distinct keys does not change member
access. -/
theorem lookupParam_perm {p1 p2 : List (String × JSValue)} (h : p1.Perm p2) :
    (p1.map Prod.fst).Nodup → ∀ key, lookupParam p1 key = lookupParam p2 key := by
  induction h with
  | nil => intro _ key; rfl
  | cons x h ih =>
    intro hnd key
    rw [List.map_cons] at hnd
    by_cases hx : x.1 = key
    · rw [lookupParam_cons_self x _ key hx, lookupParam_cons_self x _ key hx]
    · rw [lookupParam_cons_ne x _ key hx, lookupParam_cons_ne x _ key hx]
      exact ih hnd.of_cons key
  | swap x y l =>
    intro hnd key
    rw [List.map_cons, List.map_cons] at hnd
    have hyx : y.1 ≠ x.1 := by
      have := List.nodup_cons.mp hnd
      exact fun he => this.1 (by rw [he]; exact List.mem_cons_self _ _)
    by_cases hy : y.1 = key <;> by_cases hx : x.1 = key
    · exact absurd (hy.trans hx.symm) hyx
    · rw [lookupParam_cons_self y _ key hy, lookupParam_cons_ne x _ key hx,
        lookupParam_cons_self y _ key hy]
    · rw [lookupParam_cons_ne y _ key hy, lookupParam_cons_self x _ key hx,
        lookupParam_cons_self x _ key hx]
    · rw [lookupParam_cons_ne y _ key hy, lookupParam_cons_ne x _ key hx,
        lookupParam_cons_ne x _ key hx, lookupParam_cons_ne y _ key hy]
  | trans h1 h2 ih1 ih2 =>
    intro hnd key
    rw [ih1 hnd key]
    exact ih2 (((h1.map Prod.fst).nodup_iff).mp hnd) key

/-- Sorting with the string order is invariant under permutation of the
input. -/
theorem mergeSort_eq_of_perm {l1 l2 : List String} (h : l1.Perm l2) :
    l1.mergeSort (fun a b => decide (a ≤ b))
      = l2.mergeSort (fun a b => decide (a ≤ b)) := by
  have htrans : ∀ (a b c : String), decide (a ≤ b) = true → decide (b ≤ c) = true →
      decide (a ≤ c) = true := by
    intro a b c hab hbc
    simp only [decide_eq_true_eq] at *
    exact le_trans hab hbc
  have htotal : ∀ (a b : String), (decide (a ≤ b) || decide (b ≤ a)) = true := by
    intro a b
    rcases le_total a b with hab | hab <;> simp [hab]
  apply List.eq_of_perm_of_sorted (r := (· ≤ ·))
  · exact (List.mergeSort_perm l1 _).trans (h.trans (List.mergeSort_perm l2 _).symm)
  · exact (List.sorted_mergeSort htrans htotal l1).imp
      (fun hab => of_decide_eq_true hab)
  · exact (List.sorted_mergeSort htrans htotal l2).imp
      (fun hab => of_decide_eq_true hab)

/-- C2: for parameter mappings equal as sets of key-value pairs (any
insertion order, keys distinct), the generated cache key is identical. -/
theorem c2_cache_key_order_independent (dataset query : String)
    (p1 p2 : List (String × JSValue)) (hperm : p1.Perm p2)
    (hnd : (p1.map Prod.fst).Nodup) :
    generateCacheKey dataset query p1 = generateCacheKey dataset query p2 := by
  unfold generateCacheKey
  have hemp : p1.isEmpty = p2.isEmpty := by
    rcases p1 with _ | ⟨a, l⟩
    · rw [hperm.symm.eq_nil]
    · rcases p2 with _ | ⟨b, m⟩
      · exact absurd hperm.eq_nil (by simp)
      · rfl
  rw [hemp]
  by_cases he : p2.isEmpty = true
  · simp [he]
  · simp only [he, if_false]
    have hkeys : (p1.map Prod.fst).mergeSort (fun a b => decide (a ≤ b))
        = (p2.map Prod.fst).mergeSort (fun a b => decide (a ≤ b)) :=
      mergeSort_eq_of_perm (hperm.map Prod.fst)
    have hfun : (fun key => key ++ "=" ++ jsonStringify (lookupParam p1 key))
        = (fun key => key ++ "=" ++ jsonStringify (lookupParam p2 key)) := by
      funext k
      rw [lookupParam_perm hperm hnd k]
    rw [hkeys, hfun]

/-- Witness for C2: two concrete two-entry parameter objects in opposite
insertion orders generate the identical cache key. -/
theorem c2_cache_key_order_independent_witness :
    generateCacheKey "production" "qtext"
        [("b", JSValue.prim (JSPrim.num 1)), ("a", JSValue.prim (JSPrim.str "x"))]
      = generateCacheKey "production" "qtext"
        [("a", JSValue.prim (JSPrim.str "x")), ("b", JSValue.prim (JSPrim.num 1))] :=
  c2_cache_key_order_independent "production" "qtext"
    [("b", JSValue.prim (JSPrim.num 1)), ("a", JSValue.prim (JSPrim.str "x"))]
    [("a", JSValue.prim (JSPrim.str "x")), ("b", JSValue.prim (JSPrim.num 1))]
    (by decide) (by decide)

/-! ## Claim C7: cache-key injectivity under separator-free inputs -/

/-- `digitChar` always lands in the digit characters. -/
theorem digitChar_mem (d : Nat) : digitChar d ∈ digitList := by
  unfold digitChar
  split <;> decide

/-- `natChars` never produces the empty list. -/
theorem natChars_ne_nil (n : Nat) : natChars n ≠ [] := by
  unfold natChars
  split <;> simp

/-- Every character of `natChars` is a digit. -/
theorem natChars_digit_mem (n : Nat) : ∀ c ∈ natChars n, c ∈ digitList := by
  induction n using Nat.strong_induction_on with
  | _ n ih =>
    unfold natChars
    split
    · intro c hc
      rw [List.mem_singleton] at hc
      rw [hc]
      exact digitChar_mem n
    · rename_i h
      intro c hc
      rcases List.mem_append.mp hc with hc1 | hc1
      · exact ih (n / 10) (Nat.div_lt_self (by omega) (by omega)) c hc1
      · rw [List.mem_singleton] at hc1
        rw [hc1]
        exact digitChar_mem (n % 10)

/-- `charVal` inverts `digitChar` on digits. -/
theorem charVal_digitChar (d : Nat) (hd : d < 10) : charVal (digitChar d) = d := by
  interval_cases d <;> rfl

/-- `readNat` on a one-digit extension. -/
theorem readNat_append_digit (xs : List Char) (c : Char) :
    readNat (xs ++ [c]) = 10 * readNat xs + charVal c := by
  unfold readNat
  rw [List.foldl_append]
  rfl

/-- `readNat` inverts `natChars`. -/
theorem readNat_natChars (n : Nat) : readNat (natChars n) = n := by
  induction n using Nat.strong_induction_on with
  | _ n ih =>
    unfold natChars
    split
    · rename_i h
      show readNat [digitChar n] = n
      unfold readNat
      rw [List.foldl_cons, List.foldl_nil]
      rw [charVal_digitChar n h]
      omega
    · rename_i h
      rw [readNat_append_digit,
        ih (n / 10) (Nat.div_lt_self (by omega) (by omega)),
        charVal_digitChar (n % 10) (Nat.mod_lt _ (by omega))]
      omega

/-- `natChars` is injective. -/
theorem natChars_inj {m n : Nat} (h : natChars m = natChars n) : m = n := by
  have hm := readNat_natChars m
  rw [h, readNat_natChars] at hm
  omega

/-- Data of `intRepr` for a nonnegative integer. -/
theorem intRepr_data_nonneg (n : Int) (h : 0 ≤ n) :
    (intRepr n).data = natChars n.toNat := by
  unfold intRepr
  rw [if_neg (by omega)]

/-- Data of `intRepr` for a negative integer. -/
theorem intRepr_data_neg (n : Int) (h : n < 0) :
    (intRepr n).data = '-' :: natChars n.natAbs := by
  unfold intRepr
  rw [if_pos h, String.data_append]
  rfl

/-- `intRepr` is injective. -/
theorem intRepr_inj {m n : Int} (h : intRepr m = intRepr n) : m = n := by
  have hd := congrArg String.data h
  by_cases hm : m < 0 <;> by_cases hn : n < 0
  · rw [intRepr_data_neg m hm, intRepr_data_neg n hn] at hd
    have := natChars_inj (List.cons.injEq .. ▸ hd).2
    omega
  · rw [intRepr_data_neg m hm, intRepr_data_nonneg n (by omega)] at hd
    exfalso
    have hmem : '-' ∈ natChars n.toNat := by
      rw [← hd]
      exact List.mem_cons_self _ _
    have := natChars_digit_mem n.toNat '-' hmem
    simp [digitList] at this
  · rw [intRepr_data_nonneg m (by omega), intRepr_data_neg n hn] at hd
    exfalso
    have hmem : '-' ∈ natChars m.toNat := by
      rw [hd]
      exact List.mem_cons_self _ _
    have := natChars_digit_mem m.toNat '-' hmem
    simp [digitList] at this
  · rw [intRepr_data_nonneg m (by omega), intRepr_data_nonneg n (by omega)] at hd
    have := natChars_inj hd
    omega

/-- JSON escaping is the identity on clean strings. -/
theorem escapeJson_clean (s : String) (hs : cleanString s) : escapeJson s = s := by
  apply String.ext
  show s.data.flatMap escapeChar = s.data
  have hgen : ∀ l : List Char,
      (∀ c ∈ l, c ≠ '"' ∧ c ≠ '\\' ∧ c ≠ '\n' ∧ c ≠ '\t' ∧ c ≠ '\r' ∧ c ≠ '&' ∧ c ≠ '=') →
      l.flatMap escapeChar = l := by
    intro l hl
    induction l with
    | nil => rfl
    | cons c cs ih =>
      rw [List.flatMap_cons]
      have hc := hl c (List.mem_cons_self _ _)
      have hesc : escapeChar c = [c] := by
        unfold escapeChar
        rw [if_neg hc.1, if_neg hc.2.1, if_neg hc.2.2.1, if_neg hc.2.2.2.1,
          if_neg hc.2.2.2.2.1]
      rw [hesc, ih (fun x hx => hl x (List.mem_cons_of_mem _ hx))]
      rfl
  exact hgen s.data hs

/-- Shape of the serialization of a clean string value. -/
theorem stringify_str_data (s : String) (hs : cleanString s) :
    (jsonStringify (JSValue.prim (JSPrim.str s))).data = '"' :: (s.data ++ ['"']) := by
  show (("\"" ++ escapeJson s ++ "\"")).data = _
  rw [escapeJson_clean s hs, String.data_append, String.data_append]
  simp

/-- Serializations of clean values are nonempty and free of the pair
separators. -/
theorem stringify_no_sep (v : JSValue) (hv : cleanVal v) :
    (jsonStringify v).data ≠ [] ∧ '&' ∉ (jsonStringify v).data
      ∧ '=' ∉ (jsonStringify v).data := by
  cases v with
  | prim pr =>
    cases pr with
    | str s =>
      rw [stringify_str_data s hv]
      refine ⟨by simp, ?_, ?_⟩
      · intro hm
        rcases List.mem_cons.mp hm with h | h
        · exact absurd h (by decide)
        · rcases List.mem_append.mp h with h | h
          · exact (hv '&' h).2.2.2.2.2.1 rfl
          · exact absurd h (by decide)
      · intro hm
        rcases List.mem_cons.mp hm with h | h
        · exact absurd h (by decide)
        · rcases List.mem_append.mp h with h | h
          · exact (hv '=' h).2.2.2.2.2.2 rfl
          · exact absurd h (by decide)
    | num n =>
      have hren : jsonStringify (JSValue.prim (JSPrim.num n)) = intRepr n := rfl
      rw [hren]
      by_cases hn : n < 0
      · rw [intRepr_data_neg n hn]
        refine ⟨by simp, ?_, ?_⟩
        · intro hm
          rcases List.mem_cons.mp hm with h | h
          · exact absurd h (by decide)
          · have := natChars_digit_mem _ _ h
            simp [digitList] at this
        · intro hm
          rcases List.mem_cons.mp hm with h | h
          · exact absurd h (by decide)
          · have := natChars_digit_mem _ _ h
            simp [digitList] at this
      · rw [intRepr_data_nonneg n (by omega)]
        refine ⟨natChars_ne_nil _, ?_, ?_⟩
        · intro hm
          have := natChars_digit_mem _ _ hm
          simp [digitList] at this
        · intro hm
          have := natChars_digit_mem _ _ hm
          simp [digitList] at this
    | bool b => cases b <;> exact ⟨by decide, by decide, by decide⟩
  | null => exact ⟨by decide, by decide, by decide⟩
  | undef => exact ⟨by decide, by decide, by decide⟩
  | arr xs => exact hv.elim

/-- Character data of the literal "true". -/
theorem true_data : "true".data = ['t', 'r', 'u', 'e'] := rfl

/-- Character data of the literal "false". -/
theorem false_data : "false".data = ['f', 'a', 'l', 's', 'e'] := rfl

/-- Character data of the literal "null". -/
theorem null_data : "null".data = ['n', 'u', 'l', 'l'] := rfl

/-- Character data of the literal "undefined". -/
theorem undefined_data :
    "undefined".data = ['u', 'n', 'd', 'e', 'f', 'i', 'n', 'e', 'd'] := rfl

/-- The decoder inverts serialization on clean values. -/
theorem decode_stringify (v : JSValue) (hv : cleanVal v) :
    decodeVal (jsonStringify v).data = some v := by
  cases v with
  | prim pr =>
    cases pr with
    | str s =>
      rw [stringify_str_data s hv]
      unfold decodeVal
      rw [true_data, false_data, null_data, undefined_data]
      rw [if_neg (by simp), if_neg (by simp), if_neg (by simp), if_neg (by simp),
        if_pos (show (('\x22' :: (s.data ++ ['\x22'])).head? = some '\x22') from rfl)]
      simp [List.dropLast_concat]
    | num n =>
      have hren : jsonStringify (JSValue.prim (JSPrim.num n)) = intRepr n := rfl
      rw [hren]
      by_cases hn : n < 0
      · rw [intRepr_data_neg n hn]
        unfold decodeVal
        rw [true_data, false_data, null_data, undefined_data]
        rw [if_neg (by simp), if_neg (by simp), if_neg (by simp), if_neg (by simp),
          if_neg (by simp),
          if_pos (show (('-' :: natChars n.natAbs).head? = some '-') from rfl)]
        simp only [List.tail_cons]
        rw [readNat_natChars]
        have habs : -((n.natAbs : Int)) = n := by omega
        rw [habs]
      · rw [intRepr_data_nonneg n (by omega)]
        obtain ⟨c, cs, hcc⟩ := List.exists_cons_of_ne_nil (natChars_ne_nil n.toNat)
        have hcd : c ∈ digitList :=
          natChars_digit_mem _ c (by rw [hcc]; exact List.mem_cons_self _ _)
        have hcf : c ≠ 't' ∧ c ≠ 'f' ∧ c ≠ 'n' ∧ c ≠ 'u' ∧ c ≠ '"' ∧ c ≠ '-' := by
          fin_cases hcd <;> exact (by decide)
        rw [hcc]
        unfold decodeVal
        rw [true_data, false_data, null_data, undefined_data]
        rw [if_neg (by simp [hcf.1]), if_neg (by simp [hcf.2.1]),
          if_neg (by simp [hcf.2.2.1]), if_neg (by simp [hcf.2.2.2.1]),
          if_neg (by simp [hcf.2.2.2.2.1]), if_neg (by simp [hcf.2.2.2.2.2])]
        rw [← hcc, readNat_natChars]
        rw [Int.toNat_of_nonneg (by omega)]
    | bool b => cases b <;> rfl
  | null => rfl
  | undef => rfl
  | arr xs => exact hv.elim

/-- Serialization is injective on clean values. -/
theorem stringify_inj {v w : JSValue} (hv : cleanVal v) (hw : cleanVal w)
    (h : jsonStringify v = jsonStringify w) : v = w := by
  have h1 := decode_stringify v hv
  have h2 := decode_stringify w hw
  rw [h] at h1
  exact Option.some.inj (h1.symm.trans h2)

/-- Character data of the literal "&". -/
theorem amp_data : "&".data = ['&'] := rfl

/-- Splitting at the first occurrence of a separator is unambiguous when the
left parts are separator-free. -/
theorem append_sep_inj (sep : Char) :
    ∀ (a b a2 b2 : List Char), sep ∉ a → sep ∉ a2 →
      a ++ sep :: b = a2 ++ sep :: b2 → a = a2 ∧ b = b2 := by
  intro a
  induction a with
  | nil =>
    intro b a2 b2 _ ha2 h
    cases a2 with
    | nil =>
      simp only [List.nil_append, List.cons.injEq] at h
      exact ⟨rfl, h.2⟩
    | cons x xs =>
      exfalso
      simp only [List.nil_append, List.cons_append, List.cons.injEq] at h
      exact ha2 (by rw [h.1]; exact List.mem_cons_self _ _)
  | cons x xs ih =>
    intro b a2 b2 ha ha2 h
    cases a2 with
    | nil =>
      exfalso
      simp only [List.nil_append, List.cons_append, List.cons.injEq] at h
      exact ha (by rw [← h.1]; exact List.mem_cons_self _ _)
    | cons y ys =>
      simp only [List.cons_append, List.cons.injEq] at h
      obtain ⟨hxy, h2⟩ := h
      have hr := ih b ys b2 (fun hm => ha (List.mem_cons_of_mem _ hm))
        (fun hm => ha2 (List.mem_cons_of_mem _ hm)) h2
      exact ⟨by rw [hxy, hr.1], hr.2⟩

/-- `joinSep "&"` at the character-data level. -/
theorem joinSep_amp_data (l : List String) :
    (joinSep "&" l).data = joinChars '&' (l.map String.data) := by
  induction l with
  | nil => rfl
  | cons x xs ih =>
    cases xs with
    | nil => rfl
    | cons y t =>
      show ((x ++ "&" ++ joinSep "&" (y :: t))).data
        = x.data ++ '&' :: joinChars '&' ((y :: t).map String.data)
      rw [String.data_append, String.data_append, ih, amp_data]
      simp

/-- Joining nonempty `&`-free segments with `&` is injective. -/
theorem joinChars_amp_inj :
    ∀ (l1 l2 : List (List Char)),
      (∀ s ∈ l1, '&' ∉ s ∧ s ≠ []) → (∀ s ∈ l2, '&' ∉ s ∧ s ≠ []) →
      joinChars '&' l1 = joinChars '&' l2 → l1 = l2 := by
  intro l1
  induction l1 with
  | nil =>
    intro l2 _ h2 h
    cases l2 with
    | nil => rfl
    | cons y ys =>
      exfalso
      cases ys with
      | nil =>
        have h' : ([] : List Char) = y := h
        exact (h2 y (List.mem_cons_self _ _)).2 h'.symm
      | cons z zs =>
        have h' : ([] : List Char) = y ++ '&' :: joinChars '&' (z :: zs) := h
        have hne : y ++ '&' :: joinChars '&' (z :: zs) ≠ [] := by simp
        exact hne h'.symm
  | cons x xs ih =>
    intro l2 h1 h2 h
    cases l2 with
    | nil =>
      exfalso
      cases xs with
      | nil =>
        have h' : x = ([] : List Char) := h
        exact (h1 x (List.mem_cons_self _ _)).2 h'
      | cons z zs =>
        have h' : x ++ '&' :: joinChars '&' (z :: zs) = ([] : List Char) := h
        have hne : x ++ '&' :: joinChars '&' (z :: zs) ≠ [] := by simp
        exact hne h'
    | cons y ys =>
      cases xs with
      | nil =>
        cases ys with
        | nil =>
          have h' : x = y := h
          rw [h']
        | cons z zs =>
          exfalso
          have h' : x = y ++ '&' :: joinChars '&' (z :: zs) := h
          exact (h1 x (List.mem_cons_self _ _)).1
            (by rw [h']; exact List.mem_append_right _ (List.mem_cons_self _ _))
      | cons x2 xs2 =>
        cases ys with
        | nil =>
          exfalso
          have h' : x ++ '&' :: joinChars '&' (x2 :: xs2) = y := h
          exact (h2 y (List.mem_cons_self _ _)).1
            (by rw [← h']; exact List.mem_append_right _ (List.mem_cons_self _ _))
        | cons y2 ys2 =>
          have h' : x ++ '&' :: joinChars '&' (x2 :: xs2)
              = y ++ '&' :: joinChars '&' (y2 :: ys2) := h
          obtain ⟨hxy, hrest⟩ := append_sep_inj '&' x _ y _
            (h1 x (List.mem_cons_self _ _)).1 (h2 y (List.mem_cons_self _ _)).1 h'
          have htail := ih (y2 :: ys2)
            (fun s hs => h1 s (List.mem_cons_of_mem _ hs))
            (fun s hs => h2 s (List.mem_cons_of_mem _ hs)) hrest
          rw [hxy, htail]

/-- A key present in the mapping looks up to the value of one of its
bindings. -/
theorem lookupParam_mem (p : List (String × JSValue)) (k : String)
    (hk : k ∈ p.map Prod.fst) :
    ∃ x ∈ p, x.1 = k ∧ lookupParam p k = x.2 := by
  unfold lookupParam
  cases hf : p.find? (fun q => decide (q.1 = k)) with
  | none =>
    exfalso
    rw [List.find?_eq_none] at hf
    rcases List.mem_map.mp hk with ⟨x, hx, hxk⟩
    exact hf x hx (by simp [hxk])
  | some x =>
    have hp := List.find?_some hf
    simp only [decide_eq_true_eq] at hp
    exact ⟨x, List.mem_of_find?_eq_some hf, hp, rfl⟩

/-- Pointwise decomposition of equal serialized pair lists: the key lists
coincide and the values agree on every key. -/
theorem keys_vals_of_seg_eq :
    ∀ (ks1 ks2 : List String) (f1 f2 : String → JSValue),
      (∀ k ∈ ks1, cleanKeyStr k ∧ cleanVal (f1 k)) →
      (∀ k ∈ ks2, cleanKeyStr k ∧ cleanVal (f2 k)) →
      ks1.map (fun k => k.data ++ '=' :: (jsonStringify (f1 k)).data)
        = ks2.map (fun k => k.data ++ '=' :: (jsonStringify (f2 k)).data) →
      ks1 = ks2 ∧ ∀ k ∈ ks1, f1 k = f2 k := by
  intro ks1
  induction ks1 with
  | nil =>
    intro ks2 f1 f2 _ _ h
    cases ks2 with
    | nil => exact ⟨rfl, by simp⟩
    | cons y ys => simp at h
  | cons k ks ih =>
    intro ks2 f1 f2 h1 h2 h
    cases ks2 with
    | nil => simp at h
    | cons k2 ks2' =>
      simp only [List.map_cons, List.cons.injEq] at h
      obtain ⟨hhead, htail⟩ := h
      have hnoeq1 : '=' ∉ k.data := fun hm =>
        ((h1 k (List.mem_cons_self _ _)).1 '=' hm).2 rfl
      have hnoeq2 : '=' ∉ k2.data := fun hm =>
        ((h2 k2 (List.mem_cons_self _ _)).1 '=' hm).2 rfl
      obtain ⟨hk, hv⟩ := append_sep_inj '=' k.data _ k2.data _ hnoeq1 hnoeq2 hhead
      have hkeq : k = k2 := String.ext hk
      have hveq : f1 k = f2 k2 :=
        stringify_inj (h1 k (List.mem_cons_self _ _)).2
          (h2 k2 (List.mem_cons_self _ _)).2 (String.ext hv)
      obtain ⟨hks, hvs⟩ := ih ks2' f1 f2
        (fun x hx => h1 x (List.mem_cons_of_mem _ hx))
        (fun x hx => h2 x (List.mem_cons_of_mem _ hx)) htail
      refine ⟨by rw [hkeq, hks], ?_⟩
      intro x hx
      rcases List.mem_cons.mp hx with he | hm
      · rw [he, hveq, ← hkeq]
      · exact hvs x hm

/-- Membership in a mapping with distinct keys is determined by key
membership and lookup. -/
theorem mem_iff_lookupParam (p : List (String × JSValue)) (k : String) (v : JSValue) :
    (p.map Prod.fst).Nodup →
      ((k, v) ∈ p ↔ (k ∈ p.map Prod.fst ∧ lookupParam p k = v)) := by
  induction p with
  | nil =>
    intro _
    simp [lookupParam]
  | cons x xs ih =>
    intro hnd
    rw [List.map_cons] at hnd
    by_cases hx : x.1 = k
    · have hknotin : k ∉ xs.map Prod.fst := by
        rw [← hx]
        exact (List.nodup_cons.mp hnd).1
      constructor
      · intro hm
        rcases List.mem_cons.mp hm with he | hm2
        · subst he
          exact ⟨by rw [List.map_cons]; exact List.mem_cons_self _ _,
            lookupParam_cons_self _ _ _ rfl⟩
        · exact absurd (List.mem_map.mpr ⟨(k, v), hm2, rfl⟩) hknotin
      · rintro ⟨hkmem, hl⟩
        rw [lookupParam_cons_self x xs k hx] at hl
        obtain ⟨a, b⟩ := x
        simp only at hx hl
        rw [hx, hl]
        exact List.mem_cons_self _ _
    · constructor
      · intro hm
        rcases List.mem_cons.mp hm with he | hm2
        · exact absurd (congrArg Prod.fst he).symm hx
        · have hr := (ih (List.nodup_cons.mp hnd).2).mp hm2
          exact ⟨by rw [List.map_cons]; exact List.mem_cons_of_mem _ hr.1,
            by rw [lookupParam_cons_ne x xs k hx]; exact hr.2⟩
      · rintro ⟨hkmem, hl⟩
        rw [lookupParam_cons_ne x xs k hx] at hl
        rw [List.map_cons] at hkmem
        rcases List.mem_cons.mp hkmem with he | hm2
        · exact absurd he.symm hx
        · exact List.mem_cons_of_mem _ ((ih (List.nodup_cons.mp hnd).2).mpr ⟨hm2, hl⟩)

/-- Two mappings with distinct keys, permutation-equal key lists and equal
lookups are permutations of each other. -/
theorem perm_of_lookup_eq (p1 p2 : List (String × JSValue))
    (hnd1 : (p1.map Prod.fst).Nodup) (hnd2 : (p2.map Prod.fst).Nodup)
    (hkeys : (p1.map Prod.fst).Perm (p2.map Prod.fst))
    (hlook : ∀ k ∈ p1.map Prod.fst, lookupParam p1 k = lookupParam p2 k) :
    p1.Perm p2 := by
  rw [List.perm_ext_iff_of_nodup (List.Nodup.of_map _ hnd1) (List.Nodup.of_map _ hnd2)]
  rintro ⟨k, v⟩
  rw [mem_iff_lookupParam p1 k v hnd1, mem_iff_lookupParam p2 k v hnd2]
  constructor
  · rintro ⟨hk, hl⟩
    exact ⟨hkeys.mem_iff.mp hk, by rw [← hlook k hk]; exact hl⟩
  · rintro ⟨hk, hl⟩
    have hk1 : k ∈ p1.map Prod.fst := hkeys.mem_iff.mpr hk
    exact ⟨hk1, by rw [hlook k hk1]; exact hl⟩

/-- Character data of the literal "sanity:". -/
theorem sanity_data : "sanity:".data = ['s', 'a', 'n', 'i', 't', 'y', ':'] := rfl

/-- Character data of the literal ":". -/
theorem colon_data : ":".data = [':'] := rfl

/-- Character data of the literal "=". -/
theorem eqsign_data : "=".data = ['='] := rfl

/-- Keys drawn from the sorted key list of a clean mapping are clean, and so
are their looked-up values. -/
theorem clean_of_sorted_mem (p : List (String × JSValue)) (hc : cleanParams p)
    (k : String)
    (hk : k ∈ (p.map Prod.fst).mergeSort (fun a b => decide (a ≤ b))) :
    cleanKeyStr k ∧ cleanVal (lookupParam p k) := by
  have hk' : k ∈ p.map Prod.fst := (List.mergeSort_perm _ _).mem_iff.mp hk
  obtain ⟨x, hx, hxk, hlx⟩ := lookupParam_mem p k hk'
  have hcx := hc x hx
  exact ⟨by rw [← hxk]; exact hcx.1, by rw [hlx]; exact hcx.2⟩

/-- Serialized pair segments of a clean mapping are nonempty and `&`-free. -/
theorem seg_clean (p : List (String × JSValue)) (hc : cleanParams p) :
    ∀ s ∈ ((p.map Prod.fst).mergeSort (fun a b => decide (a ≤ b))).map
        (fun k => k.data ++ '=' :: (jsonStringify (lookupParam p k)).data),
      '&' ∉ s ∧ s ≠ [] := by
  intro s hs
  rcases List.mem_map.mp hs with ⟨k, hk, rfl⟩
  have hck := clean_of_sorted_mem p hc k hk
  constructor
  · intro hm
    rcases List.mem_append.mp hm with h | h
    · exact (hck.1 '&' h).1 rfl
    · rcases List.mem_cons.mp h with h | h
      · exact absurd h (by decide)
      · exact (stringify_no_sep _ hck.2).2.1 h
  · simp

/-- The pair list mapped to character data. -/
theorem pairs_data_eq (p : List (String × JSValue)) :
    (((p.map Prod.fst).mergeSort (fun a b => decide (a ≤ b))).map
        (fun key => key ++ "=" ++ jsonStringify (lookupParam p key))).map String.data
      = ((p.map Prod.fst).mergeSort (fun a b => decide (a ≤ b))).map
        (fun k => k.data ++ '=' :: (jsonStringify (lookupParam p k)).data) := by
  rw [List.map_map]
  congr 1
  funext k
  simp [Function.comp, String.data_append, eqsign_data]

/-- Under colon-free dataset and query and clean parameters, the cache key
determines the request up to parameter permutation. -/
theorem cache_key_determines (ds q ds2 q2 : String)
    (p1 p2 : List (String × JSValue))
    (hds : colonFree ds) (hds2 : colonFree ds2) (hq : colonFree q)
    (hq2 : colonFree q2) (hc1 : cleanParams p1) (hc2 : cleanParams p2)
    (hnd1 : (p1.map Prod.fst).Nodup) (hnd2 : (p2.map Prod.fst).Nodup)
    (heq : generateCacheKey ds q p1 = generateCacheKey ds2 q2 p2) :
    ds = ds2 ∧ q = q2 ∧ p1.Perm p2 := by
  simp only [generateCacheKey] at heq
  by_cases he1 : p1.isEmpty = true
  · have hp1 : p1 = [] := List.isEmpty_iff.mp he1
    by_cases he2 : p2.isEmpty = true
    · have hp2 : p2 = [] := List.isEmpty_iff.mp he2
      rw [if_pos he1, if_pos he2] at heq
      have hd := congrArg String.data heq
      simp only [String.data_append, sanity_data, colon_data, List.append_assoc,
        List.cons_append, List.nil_append, List.cons.injEq, eq_self_iff_true,
        true_and] at hd
      obtain ⟨hdsd, hrest⟩ := append_sep_inj ':' ds.data _ ds2.data _
        (fun hm => (hds ':' hm) rfl) (fun hm => (hds2 ':' hm) rfl) hd
      exact ⟨String.ext hdsd, String.ext hrest, by rw [hp1, hp2]⟩
    · rw [if_pos he1, if_neg he2] at heq
      have hd := congrArg String.data heq
      simp only [String.data_append, sanity_data, colon_data, List.append_assoc,
        List.cons_append, List.nil_append, List.cons.injEq, eq_self_iff_true,
        true_and] at hd
      obtain ⟨hdsd, hrest⟩ := append_sep_inj ':' ds.data _ ds2.data _
        (fun hm => (hds ':' hm) rfl) (fun hm => (hds2 ':' hm) rfl) hd
      exfalso
      have hmem : ':' ∈ q.data := by
        rw [hrest]
        exact List.mem_append_right _ (List.mem_cons_self _ _)
      exact (hq ':' hmem) rfl
  · by_cases he2 : p2.isEmpty = true
    · rw [if_neg he1, if_pos he2] at heq
      have hd := congrArg String.data heq
      simp only [String.data_append, sanity_data, colon_data, List.append_assoc,
        List.cons_append, List.nil_append, List.cons.injEq, eq_self_iff_true,
        true_and] at hd
      obtain ⟨hdsd, hrest⟩ := append_sep_inj ':' ds.data _ ds2.data _
        (fun hm => (hds ':' hm) rfl) (fun hm => (hds2 ':' hm) rfl) hd
      exfalso
      have hmem : ':' ∈ q2.data := by
        rw [← hrest]
        exact List.mem_append_right _ (List.mem_cons_self _ _)
      exact (hq2 ':' hmem) rfl
    · rw [if_neg he1, if_neg he2] at heq
      have hd := congrArg String.data heq
      simp only [String.data_append, sanity_data, colon_data, List.append_assoc,
        List.cons_append, List.nil_append, List.cons.injEq, eq_self_iff_true,
        true_and] at hd
      obtain ⟨hdsd, hrest⟩ := append_sep_inj ':' ds.data _ ds2.data _
        (fun hm => (hds ':' hm) rfl) (fun hm => (hds2 ':' hm) rfl) hd
      obtain ⟨hqd, hS⟩ := append_sep_inj ':' q.data _ q2.data _
        (fun hm => (hq ':' hm) rfl) (fun hm => (hq2 ':' hm) rfl) hrest
      refine ⟨String.ext hdsd, String.ext hqd, ?_⟩
      rw [joinSep_amp_data, joinSep_amp_data, pairs_data_eq, pairs_data_eq] at hS
      have hlist := joinChars_amp_inj _ _ (seg_clean p1 hc1) (seg_clean p2 hc2) hS
      obtain ⟨hks, hvals⟩ := keys_vals_of_seg_eq
        ((p1.map Prod.fst).mergeSort (fun a b => decide (a ≤ b)))
        ((p2.map Prod.fst).mergeSort (fun a b => decide (a ≤ b)))
        (lookupParam p1) (lookupParam p2)
        (clean_of_sorted_mem p1 hc1) (clean_of_sorted_mem p2 hc2) hlist
      have hkeysperm : (p1.map Prod.fst).Perm (p2.map Prod.fst) :=
        ((List.mergeSort_perm (p1.map Prod.fst) _).symm.trans
          (hks ▸ List.mergeSort_perm (p2.map Prod.fst) _))
      apply perm_of_lookup_eq p1 p2 hnd1 hnd2 hkeysperm
      intro k hk
      exact hvals k ((List.mergeSort_perm (p1.map Prod.fst) _).mem_iff.mpr hk)

/-- Counterexample to C7 as stated: the requests (dataset "a:b", query "c")
and (dataset "a", query "b:c"), both without parameters, differ in dataset
and in query text yet generate the identical cache key "sanity:a:b:c" —
plain colon-joined concatenation is not collision-free. -/
theorem c7_counterexample :
    generateCacheKey "a:b" "c" [] = generateCacheKey "a" "b:c" [] ∧
    ¬("a:b" = "a" ∧ "c" = "b:c") :=
  ⟨rfl, by decide⟩

/-- C7 (amended): for requests whose dataset and query contain no ':',
whose parameter keys contain no '&' or '=' and are distinct, and whose
parameter values are scalars (strings free of separator and escape
characters), any two requests that differ in dataset, query text, or
parameter mapping (as a set) generate distinct cache keys. -/
theorem c7_distinct_keys (ds q ds2 q2 : String)
    (p1 p2 : List (String × JSValue))
    (hds : colonFree ds) (hds2 : colonFree ds2) (hq : colonFree q)
    (hq2 : colonFree q2) (hc1 : cleanParams p1) (hc2 : cleanParams p2)
    (hnd1 : (p1.map Prod.fst).Nodup) (hnd2 : (p2.map Prod.fst).Nodup)
    (hne : ¬(ds = ds2 ∧ q = q2 ∧ p1.Perm p2)) :
    generateCacheKey ds q p1 ≠ generateCacheKey ds2 q2 p2 :=
  fun heq => hne
    (cache_key_determines ds q ds2 q2 p1 p2 hds hds2 hq hq2 hc1 hc2 hnd1 hnd2 heq)

/-- Witness for C7 (amended): a request with one parameter and the same
request with none generate different keys. -/
theorem c7_distinct_keys_witness :
    generateCacheKey "d" "q" [("k", JSValue.prim (JSPrim.num 1))]
      ≠ generateCacheKey "d" "q" [] :=
  c7_distinct_keys "d" "q" "d" "q" [("k", JSValue.prim (JSPrim.num 1))] []
    (by decide) (by decide) (by decide) (by decide) (by decide) (by decide)
    (by decide) (by decide) (by decide)
